import Mathlib

/-!
Verification of `cov` (rumpl/cov, src/main.go): a shallow embedding of the
block-to-function coverage aggregation engine, the function-extent visitor,
the report sorting/percent/color logic, and the top-level error handling.

Modelling conventions:
* Go `int`/`int64` values (lines, columns, statement counts, hit counts,
  accumulated totals) are embedded as `Int`.  No claim depends on 64-bit
  wrap-around, and the program only ever adds small per-block counts, so
  overflow is not modelled.
* Go `float64` percentages are embedded as exact rationals `ℚ`; a division
  whose denominator is zero (which in IEEE arithmetic produces NaN for 0/0,
  and ±Inf otherwise — in either case a non-finite value that never prints
  as `0.0%`) is embedded as `none : Option ℚ`.
-/

/-- One coverage block of a profile, after `golang.org/x/tools/cover`'s
`ProfileBlock` (fields `StartLine, StartCol, EndLine, EndCol, NumStmt, Count`). -/
structure ProfileBlock where
  startLine : Int
  startCol : Int
  endLine : Int
  endCol : Int
  numStmt : Int
  count : Int
deriving DecidableEq

/-- A function extent, after `FuncExtent` in src/main.go (name plus
start/end line and column of the declaration). -/
structure FuncExtent where
  name : String
  startLine : Int
  startCol : Int
  endLine : Int
  endCol : Int
deriving DecidableEq

/-- The break condition of the scan loop (src/main.go line 184): the block
starts past the end of the function. -/
def startsPastEnd (f : FuncExtent) (b : ProfileBlock) : Prop :=
  b.startLine > f.endLine ∨ (b.startLine = f.endLine ∧ b.startCol ≥ f.endCol)

instance (f : FuncExtent) (b : ProfileBlock) : Decidable (startsPastEnd f b) :=
  inferInstanceAs (Decidable (_ ∨ _))

/-- The continue condition of the scan loop (src/main.go line 188): the block
ends before the beginning of the function. -/
def endsBeforeStart (f : FuncExtent) (b : ProfileBlock) : Prop :=
  b.endLine < f.startLine ∨ (b.endLine = f.startLine ∧ b.endCol ≤ f.startCol)

instance (f : FuncExtent) (b : ProfileBlock) : Decidable (endsBeforeStart f b) :=
  inferInstanceAs (Decidable (_ ∨ _))

/-- A block overlaps the extent exactly when it is neither broken on nor
skipped by the scan: it does not start at/past the extent's end and does not
end at/before the extent's start. -/
def overlaps (f : FuncExtent) (b : ProfileBlock) : Prop :=
  ¬ startsPastEnd f b ∧ ¬ endsBeforeStart f b

instance (f : FuncExtent) (b : ProfileBlock) : Decidable (overlaps f b) :=
  inferInstanceAs (Decidable (_ ∧ _))

/-- The body of the `for _, b := range profile.Blocks` loop of
`FuncExtent.coverage` (src/main.go lines 183-196), with the two running
accumulators `covered` and `total` made explicit.  `break` returns the
accumulators unchanged; `continue` recurses without adding; otherwise
`total += b.NumStmt` and, when `b.Count > 0`, `covered += b.NumStmt`. -/
def coverageLoop (f : FuncExtent) : List ProfileBlock → Int → Int → Int × Int
  | [], covered, total => (covered, total)
  | b :: bs, covered, total =>
    if startsPastEnd f b then
      (covered, total)
    else if endsBeforeStart f b then
      coverageLoop f bs covered total
    else
      coverageLoop f bs (if b.count > 0 then covered + b.numStmt else covered)
        (total + b.numStmt)

/-- `FuncExtent.coverage` (src/main.go lines 178-201): run the scan loop with
both accumulators starting at 0, then replace a zero `total` by 1 ("Avoid
zero denominator").  Returns `(covered, total)` (the Go `(num, den)`). -/
def FuncExtent.coverage (f : FuncExtent) (blocks : List ProfileBlock) : Int × Int :=
  match coverageLoop f blocks 0 0 with
  | (covered, total) => (covered, if total = 0 then 1 else total)

/-- Helper: if no block overlaps the extent, every block is either broken on
or skipped, so the scan accumulates nothing. -/
theorem coverageLoop_no_overlap (f : FuncExtent) (blocks : List ProfileBlock)
    (h : ∀ b ∈ blocks, ¬ overlaps f b) :
    coverageLoop f blocks 0 0 = (0, 0) := by
  induction blocks with
  | nil => rfl
  | cons b bs ih =>
    have hb : ¬ overlaps f b := h b (List.mem_cons_self b bs)
    by_cases hstop : startsPastEnd f b
    · simp [coverageLoop, hstop]
    · have hskip : endsBeforeStart f b := by
        by_contra hsk
        exact hb ⟨hstop, hsk⟩
      simpa [coverageLoop, hstop, hskip] using
        ih (fun x hx => h x (List.mem_cons_of_mem b hx))

/-- Helper: coverage of an extent overlapped by no block. -/
theorem coverage_no_overlap (f : FuncExtent) (blocks : List ProfileBlock)
    (h : ∀ b ∈ blocks, ¬ overlaps f b) :
    f.coverage blocks = (0, 1) := by
  unfold FuncExtent.coverage
  rw [coverageLoop_no_overlap f blocks h]
  rfl

/-- Claim C4: for every function extent and every profile in which no block
overlaps the extent, `FuncExtent.coverage` returns `covered = 0` and
`total = 1` (the zero denominator is replaced by the sentinel 1). -/
theorem c4_no_overlap_yields_zero_one (f : FuncExtent) (blocks : List ProfileBlock)
    (h : ∀ b ∈ blocks, ¬ overlaps f b) :
    f.coverage blocks = (0, 1) :=
  coverage_no_overlap f blocks h

/-- Witness for C4: a concrete extent (lines 5-9) and a profile whose two
blocks lie entirely before and entirely after it. -/
theorem c4_witness :
    (∀ b ∈ [ProfileBlock.mk 1 1 2 3 4 1, ProfileBlock.mk 10 1 11 3 2 0],
      ¬ overlaps (FuncExtent.mk "f" 5 1 9 2) b) ∧
    (FuncExtent.mk "f" 5 1 9 2).coverage
      [ProfileBlock.mk 1 1 2 3 4 1, ProfileBlock.mk 10 1 11 3 2 0] = (0, 1) :=
  ⟨by decide,
   c4_no_overlap_yields_zero_one (FuncExtent.mk "f" 5 1 9 2)
     [ProfileBlock.mk 1 1 2 3 4 1, ProfileBlock.mk 10 1 11 3 2 0] (by decide)⟩

/-- Helper: scan invariant for C10.  Starting from accumulators with
`0 ≤ covered ≤ total`, the loop keeps `0 ≤ covered ≤ total` provided every
block has a non-negative statement count. -/
theorem coverageLoop_invariant (f : FuncExtent) (blocks : List ProfileBlock)
    (hstmt : ∀ b ∈ blocks, 0 ≤ b.numStmt) :
    ∀ covered total : Int, 0 ≤ covered → covered ≤ total →
      0 ≤ (coverageLoop f blocks covered total).1 ∧
      (coverageLoop f blocks covered total).1 ≤ (coverageLoop f blocks covered total).2 := by
  induction blocks with
  | nil => intro covered total h0 hle; exact ⟨h0, hle⟩
  | cons b bs ih =>
    intro covered total h0 hle
    have hb : 0 ≤ b.numStmt := hstmt b (List.mem_cons_self b bs)
    have htail : ∀ x ∈ bs, 0 ≤ x.numStmt :=
      fun x hx => hstmt x (List.mem_cons_of_mem b hx)
    by_cases hstop : startsPastEnd f b
    · simpa [coverageLoop, hstop] using ⟨h0, hle⟩
    · by_cases hskip : endsBeforeStart f b
      · simpa [coverageLoop, hstop, hskip] using ih htail covered total h0 hle
      · by_cases hcnt : b.count > 0
        · simpa [coverageLoop, hstop, hskip, hcnt] using
            ih htail (covered + b.numStmt) (total + b.numStmt) (by omega) (by omega)
        · simpa [coverageLoop, hstop, hskip, hcnt] using
            ih htail covered (total + b.numStmt) h0 (by omega)

/-- Claim C10: with non-negative per-block statement counts, the coverage
computation satisfies `0 ≤ covered ≤ total` and `1 ≤ total`, so each
function's contribution to a percentage lies between 0 and 100. -/
theorem c10_coverage_bounds (f : FuncExtent) (blocks : List ProfileBlock)
    (hstmt : ∀ b ∈ blocks, 0 ≤ b.numStmt) :
    0 ≤ (f.coverage blocks).1 ∧
    (f.coverage blocks).1 ≤ (f.coverage blocks).2 ∧
    1 ≤ (f.coverage blocks).2 := by
  have h := coverageLoop_invariant f blocks hstmt 0 0 le_rfl le_rfl
  rcases hscan : coverageLoop f blocks 0 0 with ⟨c, t⟩
  rw [hscan] at h
  obtain ⟨h1, h2⟩ := h
  unfold FuncExtent.coverage
  rw [hscan]
  dsimp only
  split_ifs with ht
  · exact ⟨h1, by omega, by omega⟩
  · exact ⟨h1, h2, by omega⟩

/-- Witness for C10: a concrete extent and profile with non-negative
statement counts. -/
theorem c10_witness :
    (∀ b ∈ [ProfileBlock.mk 5 10 6 3 4 2, ProfileBlock.mk 6 5 8 3 2 0],
      0 ≤ b.numStmt) ∧
    (0 ≤ ((FuncExtent.mk "g" 5 1 9 2).coverage
        [ProfileBlock.mk 5 10 6 3 4 2, ProfileBlock.mk 6 5 8 3 2 0]).1 ∧
      ((FuncExtent.mk "g" 5 1 9 2).coverage
        [ProfileBlock.mk 5 10 6 3 4 2, ProfileBlock.mk 6 5 8 3 2 0]).1 ≤
      ((FuncExtent.mk "g" 5 1 9 2).coverage
        [ProfileBlock.mk 5 10 6 3 4 2, ProfileBlock.mk 6 5 8 3 2 0]).2 ∧
      1 ≤ ((FuncExtent.mk "g" 5 1 9 2).coverage
        [ProfileBlock.mk 5 10 6 3 4 2, ProfileBlock.mk 6 5 8 3 2 0]).2) :=
  ⟨by decide,
   c10_coverage_bounds (FuncExtent.mk "g" 5 1 9 2)
     [ProfileBlock.mk 5 10 6 3 4 2, ProfileBlock.mk 6 5 8 3 2 0] (by decide)⟩

/-- Claim C2: a block whose end coincides exactly with the extent's start
(`endLine = startLine`, `endCol = startCol`) contributes nothing to the scan
(it is either broken on or skipped, and alone yields `(covered, total) =
(0, 0)`, floored to `(0, 1)`); the otherwise identical block whose `endCol`
is `startCol + 1` — provided its start does not lie at or past the extent's
end — is counted, adding its statement count to `total`. -/
theorem c2_boundary_blocks (f : FuncExtent) (b : ProfileBlock)
    (hline : b.endLine = f.startLine) (hcol : b.endCol = f.startCol)
    (hnostop : ¬ startsPastEnd f { b with endCol := f.startCol + 1 }) :
    coverageLoop f [b] 0 0 = (0, 0) ∧
    f.coverage [b] = (0, 1) ∧
    (coverageLoop f [{ b with endCol := f.startCol + 1 }] 0 0).2 = b.numStmt := by
  have hb : ¬ overlaps f b := by
    intro hov
    exact hov.2 (Or.inr ⟨hline, le_of_eq hcol⟩)
  have hstop : ¬ startsPastEnd f b := by
    intro hst
    exact hnostop hst
  have hskip : endsBeforeStart f b := Or.inr ⟨hline, le_of_eq hcol⟩
  refine ⟨?_, ?_, ?_⟩
  · simp [coverageLoop, hstop, hskip]
  · exact coverage_no_overlap f [b] (by
      intro x hx
      rcases List.mem_singleton.mp hx with rfl
      exact hb)
  · have hskip2 : ¬ endsBeforeStart f { b with endCol := f.startCol + 1 } := by
      intro hsk
      rcases hsk with hlt | ⟨_, hle⟩
      · simp only at hlt
        omega
      · simp only at hle
        omega
    by_cases hcnt : b.count > 0 <;>
      simp [coverageLoop, hnostop, hskip2, hcnt]

/-- Witness for C2: extent lines 2-10, block ending exactly at the extent's
start (line 2, column 5). -/
theorem c2_witness :
    ((ProfileBlock.mk 1 1 2 5 4 1).endLine = (FuncExtent.mk "h" 2 5 10 3).startLine ∧
     (ProfileBlock.mk 1 1 2 5 4 1).endCol = (FuncExtent.mk "h" 2 5 10 3).startCol ∧
     ¬ startsPastEnd (FuncExtent.mk "h" 2 5 10 3)
       { ProfileBlock.mk 1 1 2 5 4 1 with endCol := (FuncExtent.mk "h" 2 5 10 3).startCol + 1 }) ∧
    (coverageLoop (FuncExtent.mk "h" 2 5 10 3) [ProfileBlock.mk 1 1 2 5 4 1] 0 0 = (0, 0) ∧
     (FuncExtent.mk "h" 2 5 10 3).coverage [ProfileBlock.mk 1 1 2 5 4 1] = (0, 1) ∧
     (coverageLoop (FuncExtent.mk "h" 2 5 10 3)
       [{ ProfileBlock.mk 1 1 2 5 4 1 with
            endCol := (FuncExtent.mk "h" 2 5 10 3).startCol + 1 }] 0 0).2 =
       (ProfileBlock.mk 1 1 2 5 4 1).numStmt) :=
  ⟨⟨by decide, by decide, by decide⟩,
   c2_boundary_blocks (FuncExtent.mk "h" 2 5 10 3) (ProfileBlock.mk 1 1 2 5 4 1)
     (by decide) (by decide) (by decide)⟩

/-- Statement-count sum of a list of blocks (`total += b.NumStmt` over the list). -/
def sumTot (bs : List ProfileBlock) : Int :=
  bs.foldr (fun b acc => b.numStmt + acc) 0

/-- Covered-statement sum of a list of blocks: statement counts of the blocks
with a positive hit count (`if b.Count > 0 { covered += b.NumStmt }`). -/
def sumCov (bs : List ProfileBlock) : Int :=
  bs.foldr (fun b acc => (if b.count > 0 then b.numStmt else 0) + acc) 0

/-- The sublist of blocks the early-stopping loop actually counts: blocks up
to the first one that starts past the extent's end, minus the skipped ones. -/
def scanBlocks (f : FuncExtent) : List ProfileBlock → List ProfileBlock
  | [] => []
  | b :: bs =>
    if startsPastEnd f b then []
    else if endsBeforeStart f b then scanBlocks f bs
    else b :: scanBlocks f bs

/-- The spec's reference computation for C1: a scan over ALL blocks that
counts every block overlapping the extent, with the same zero-total
flooring as `FuncExtent.coverage`. -/
def coverageFull (f : FuncExtent) (blocks : List ProfileBlock) : Int × Int :=
  (sumCov (blocks.filter (fun b => decide (overlaps f b))),
   if sumTot (blocks.filter (fun b => decide (overlaps f b))) = 0 then 1
   else sumTot (blocks.filter (fun b => decide (overlaps f b))))

/-- Block `a` starts no later than block `b` (line, then column): the
per-profile sortedness invariant of coverage blocks. -/
def startLe (a b : ProfileBlock) : Prop :=
  a.startLine < b.startLine ∨ (a.startLine = b.startLine ∧ a.startCol ≤ b.startCol)

instance (a b : ProfileBlock) : Decidable (startLe a b) :=
  inferInstanceAs (Decidable (_ ∨ _))

/-- Block `a` ends at or before the start of block `b`: non-overlap of blocks
listed in ascending start order. -/
def blockDisjoint (a b : ProfileBlock) : Prop :=
  a.endLine < b.startLine ∨ (a.endLine = b.startLine ∧ a.endCol ≤ b.startCol)

instance (a b : ProfileBlock) : Decidable (blockDisjoint a b) :=
  inferInstanceAs (Decidable (_ ∨ _))

/-- Helper: the break condition is monotone along the start order — once one
block starts past the extent's end, so does every later-starting block. -/
theorem startsPastEnd_mono (f : FuncExtent) {a b : ProfileBlock}
    (hle : startLe a b) (h : startsPastEnd f a) : startsPastEnd f b := by
  unfold startLe at hle
  unfold startsPastEnd at h ⊢
  omega

/-- Helper: the early-stopping loop adds to its accumulators exactly the sums
over `scanBlocks`. -/
theorem coverageLoop_eq_scanBlocks (f : FuncExtent) (bs : List ProfileBlock) :
    ∀ c t : Int, coverageLoop f bs c t =
      (c + sumCov (scanBlocks f bs), t + sumTot (scanBlocks f bs)) := by
  induction bs with
  | nil => intro c t; simp [coverageLoop, scanBlocks, sumCov, sumTot]
  | cons b bs ih =>
    intro c t
    by_cases hstop : startsPastEnd f b
    · simp [coverageLoop, scanBlocks, hstop, sumCov, sumTot]
    · by_cases hskip : endsBeforeStart f b
      · simp [coverageLoop, scanBlocks, hstop, hskip, ih]
      · by_cases hcnt : b.count > 0 <;>
          simp [coverageLoop, scanBlocks, hstop, hskip, hcnt, ih, sumCov, sumTot] <;>
          ring_nf <;> omega

/-- Helper: on a list sorted by ascending start position, the blocks counted
by the early-stopping scan are exactly the blocks overlapping the extent. -/
theorem scanBlocks_eq_filter (f : FuncExtent) (bs : List ProfileBlock)
    (hsorted : List.Pairwise startLe bs) :
    scanBlocks f bs = bs.filter (fun b => decide (overlaps f b)) := by
  induction bs with
  | nil => rfl
  | cons b bs ih =>
    rw [List.pairwise_cons] at hsorted
    obtain ⟨hhead, htail⟩ := hsorted
    by_cases hstop : startsPastEnd f b
    · have hall : ∀ x ∈ b :: bs, ¬ (decide (overlaps f x) = true) := by
        intro x hx
        rcases List.mem_cons.mp hx with rfl | hx
        · simp [overlaps, hstop]
        · have : startsPastEnd f x := startsPastEnd_mono f (hhead x hx) hstop
          simp [overlaps, this]
      rw [List.filter_eq_nil_iff.mpr hall]
      simp [scanBlocks, hstop]
    · by_cases hskip : endsBeforeStart f b
      · have : ¬ overlaps f b := fun hov => hov.2 hskip
        simp [scanBlocks, hstop, hskip, List.filter_cons, this, ih htail]
      · have : overlaps f b := ⟨hstop, hskip⟩
        simp [scanBlocks, hstop, hskip, List.filter_cons, this, ih htail]

/-- Claim C1: for a profile whose blocks are sorted by ascending start
position (line, then column) and non-overlapping, the early-stopping scan of
`FuncExtent.coverage` returns the same `(covered, total)` pair as the
reference scan over all blocks that counts every overlapping block. -/
theorem c1_early_stop_eq_full_scan (f : FuncExtent) (blocks : List ProfileBlock)
    (hsorted : List.Pairwise startLe blocks)
    (_hdisjoint : List.Pairwise blockDisjoint blocks) :
    f.coverage blocks = coverageFull f blocks := by
  have hscan := coverageLoop_eq_scanBlocks f blocks 0 0
  have hfilter := scanBlocks_eq_filter f blocks hsorted
  unfold FuncExtent.coverage coverageFull
  rw [hscan, hfilter]
  simp

/-- Witness for C1: a sorted, pairwise-disjoint two-block profile and an
extent overlapping the second block. -/
theorem c1_witness :
    List.Pairwise startLe [ProfileBlock.mk 1 1 2 3 4 1, ProfileBlock.mk 2 5 4 3 2 0] ∧
    List.Pairwise blockDisjoint [ProfileBlock.mk 1 1 2 3 4 1, ProfileBlock.mk 2 5 4 3 2 0] ∧
    (FuncExtent.mk "w" 2 4 9 2).coverage
        [ProfileBlock.mk 1 1 2 3 4 1, ProfileBlock.mk 2 5 4 3 2 0] =
      coverageFull (FuncExtent.mk "w" 2 4 9 2)
        [ProfileBlock.mk 1 1 2 3 4 1, ProfileBlock.mk 2 5 4 3 2 0] :=
  ⟨by decide, by decide,
   c1_early_stop_eq_full_scan (FuncExtent.mk "w" 2 4 9 2)
     [ProfileBlock.mk 1 1 2 3 4 1, ProfileBlock.mk 2 5 4 3 2 0]
     (by decide) (by decide)⟩

/-- A Go AST node, restricted to the distinctions `FuncVisitor.Visit` makes:
a function declaration (`*ast.FuncDecl` — with `hasRecv = true` when the
declaration has a receiver, i.e. is a method, since in Go a method IS a
`FuncDecl` with a non-nil `Recv` field), a function literal (`*ast.FuncLit`,
the form taken by nested/anonymous functions), or any other node kind; each
node carries its children in source order. -/
inductive AstNode where
  | funcDecl (hasRecv : Bool) (name : String)
      (startLine startCol endLine endCol : Int) (children : List AstNode)
  | funcLit (children : List AstNode)
  | other (children : List AstNode)

mutual

/-- `ast.Walk` with `FuncVisitor.Visit` (src/main.go lines 153-168): `Visit`
appends a `FuncExtent` exactly for `*ast.FuncDecl` nodes and always returns
the visitor, so the walk descends into every node's children. -/
def visitWalk : AstNode → List FuncExtent
  | .funcDecl _ nm sl sc el ec cs => FuncExtent.mk nm sl sc el ec :: visitWalkList cs
  | .funcLit cs => visitWalkList cs
  | .other cs => visitWalkList cs

/-- Walk a list of sibling nodes in order, concatenating what each collects. -/
def visitWalkList : List AstNode → List FuncExtent
  | [] => []
  | n :: ns => visitWalk n ++ visitWalkList ns

end

/-- `test` (src/main.go lines 128-144), restricted to its collection step:
walk the parsed file's declarations and return the visitor's `funcs`. -/
def test (decls : List AstNode) : List FuncExtent :=
  visitWalkList decls

/-- The collection described by claim C3: only the top-level NAMED function
declarations, i.e. `FuncDecl` nodes without a receiver, taken from the
declaration level only. -/
def topLevelNamedFuncs (decls : List AstNode) : List FuncExtent :=
  decls.filterMap fun n =>
    match n with
    | .funcDecl false nm sl sc el ec _ => some (FuncExtent.mk nm sl sc el ec)
    | _ => none

mutual

/-- All nodes of a subtree in pre-order. -/
def allNodes : AstNode → List AstNode
  | .funcDecl r nm sl sc el ec cs => .funcDecl r nm sl sc el ec cs :: allNodesList cs
  | .funcLit cs => .funcLit cs :: allNodesList cs
  | .other cs => .other cs :: allNodesList cs

/-- All nodes of a forest in pre-order. -/
def allNodesList : List AstNode → List AstNode
  | [] => []
  | n :: ns => allNodes n ++ allNodesList ns

end

/-- The extent recorded for a node if it is a function declaration (of either
kind — plain function or method), and `none` otherwise. -/
def extentOfFuncDecl : AstNode → Option FuncExtent
  | .funcDecl _ nm sl sc el ec _ => some (FuncExtent.mk nm sl sc el ec)
  | _ => none

/-- Counterexample for C3: a file consisting of one METHOD declaration.  The
visitor matches `*ast.FuncDecl`, which includes methods, so the method IS
collected, while the claim says method declarations are never collected. -/
theorem c3_counterexample :
    test [AstNode.funcDecl true "M" 1 1 3 2 []] ≠
      topLevelNamedFuncs [AstNode.funcDecl true "M" 1 1 3 2 []] := by
  simp [test, visitWalkList, visitWalk, topLevelNamedFuncs]

mutual

/-- Helper: what the walk collects from one node is exactly the extents of
the function-declaration nodes of its subtree, in pre-order. -/
theorem visitWalk_eq_preorder (n : AstNode) :
    visitWalk n = (allNodes n).filterMap extentOfFuncDecl := by
  cases n with
  | funcDecl r nm sl sc el ec cs =>
    simp [visitWalk, allNodes, extentOfFuncDecl, List.filterMap_cons,
      visitWalkList_eq_preorder cs]
  | funcLit cs =>
    simp [visitWalk, allNodes, extentOfFuncDecl, List.filterMap_cons,
      visitWalkList_eq_preorder cs]
  | other cs =>
    simp [visitWalk, allNodes, extentOfFuncDecl, List.filterMap_cons,
      visitWalkList_eq_preorder cs]

/-- Helper: ditto for a forest. -/
theorem visitWalkList_eq_preorder (ns : List AstNode) :
    visitWalkList ns = (allNodesList ns).filterMap extentOfFuncDecl := by
  cases ns with
  | nil => simp [visitWalkList, allNodesList]
  | cons n ns =>
    simp [visitWalkList, allNodesList, List.filterMap_append,
      visitWalk_eq_preorder n, visitWalkList_eq_preorder ns]

end

/-- Claim C3 (amended): the extractor collects exactly the extents of the
function-declaration nodes (`*ast.FuncDecl` — plain functions AND methods)
of the parsed file, in pre-order traversal order; function literals
(nested/anonymous functions) are never collected. -/
theorem c3_amended_collects_all_funcdecls (decls : List AstNode) :
    test decls = (allNodesList decls).filterMap extentOfFuncDecl :=
  visitWalkList_eq_preorder decls

/-- A report row, after `coveredFile` in src/main.go (file name plus percent);
the `float64` percent is embedded as an exact rational. -/
structure CoveredFile where
  filename : String
  percent : ℚ
deriving DecidableEq

/-- The comparator closure passed to `sort.Slice` (src/main.go lines 89-94):
`coverfiles[i].percent >= coverfiles[j].percent` when `reverse` is set,
`coverfiles[i].percent < coverfiles[j].percent` otherwise. -/
def sortLess (reverse : Bool) (a b : CoveredFile) : Bool :=
  if reverse then decide (a.percent ≥ b.percent) else decide (a.percent < b.percent)

/-- The inner loop of Go's `insertionSort_func`, acting on the reversed
already-processed prefix `rp`: the new element `x` is swapped past each
predecessor `p` while `less x p` holds, and placed at the first `p` with
`¬ less x p`. -/
def revInsert {α : Type*} (less : α → α → Bool) (x : α) : List α → List α
  | [] => [x]
  | p :: rp => if less x p then p :: revInsert less x rp else x :: p :: rp

/-- Go's `insertionSort_func`: the outer loop takes each element in order and
runs the inner swap loop on the prefix before it (kept reversed here, so the
swap loop is structural; the final `reverse` restores slice order). -/
def insertionSortGo {α : Type*} (less : α → α → Bool) (xs : List α) : List α :=
  (xs.foldl (fun rp x => revInsert less x rp) []).reverse

/-- `sort.Slice(coverfiles, ...)` (src/main.go lines 89-94).  Go's
`sort.Slice` runs pdqsort, which for slices of length at most 12
(`maxInsertion`) is exactly `insertionSort_func`; the theorems below carry a
`length ≤ 12` hypothesis to stay on that faithfully modelled path. -/
def sortFiles (reverse : Bool) (files : List CoveredFile) : List CoveredFile :=
  insertionSortGo (sortLess reverse) files

/-- Counterexample for C5: with `reverse = true` the comparator is `>=`,
which also holds between equal percents, so the insertion sort swaps two
rows of equal percent: the relative input order of the tied rows is NOT
kept, contradicting the claimed stability. -/
theorem c5_counterexample :
    sortFiles true [CoveredFile.mk "a" 50, CoveredFile.mk "b" 50] =
      [CoveredFile.mk "b" 50, CoveredFile.mk "a" 50] ∧
    CoveredFile.mk "a" 50 ≠ CoveredFile.mk "b" 50 := by
  constructor
  · simp [sortFiles, insertionSortGo, revInsert, sortLess]
  · simp

/-- Helper: `revInsert` permutes the element consed onto the prefix. -/
theorem revInsert_perm {α : Type*} (less : α → α → Bool) (x : α) (rp : List α) :
    (revInsert less x rp).Perm (x :: rp) := by
  induction rp with
  | nil => exact List.Perm.refl _
  | cons p rp ih =>
    cases hls : less x p with
    | true =>
      simp only [revInsert, hls, if_true]
      exact (ih.cons p).trans (List.Perm.swap x p rp)
    | false =>
      simp only [revInsert, hls, Bool.false_eq_true, if_false]
      exact List.Perm.refl _

/-- Helper: `revInsert` preserves reverse-sortedness of the prefix, for any
comparator `less` compatible with a transitive order `le`. -/
theorem revInsert_pairwise {α : Type*} (le : α → α → Prop) (less : α → α → Bool)
    (htrans : ∀ a b c, le a b → le b c → le a c)
    (h1 : ∀ a b, less a b = true → le a b)
    (h2 : ∀ a b, less a b = false → le b a)
    (x : α) (rp : List α) (hP : List.Pairwise (fun a b => le b a) rp) :
    List.Pairwise (fun a b => le b a) (revInsert less x rp) := by
  induction rp with
  | nil => simp [revInsert]
  | cons p rp ih =>
    rw [List.pairwise_cons] at hP
    obtain ⟨hp, htl⟩ := hP
    cases hls : less x p with
    | true =>
      simp only [revInsert, hls, if_true]
      rw [List.pairwise_cons]
      refine ⟨?_, ih htl⟩
      intro q hq
      rcases List.mem_cons.mp ((revInsert_perm less x rp).mem_iff.mp hq) with rfl | hq
      · exact h1 q p hls
      · exact hp q hq
    | false =>
      simp only [revInsert, hls, Bool.false_eq_true, if_false]
      rw [List.pairwise_cons]
      refine ⟨?_, by rw [List.pairwise_cons]; exact ⟨hp, htl⟩⟩
      intro q hq
      rcases List.mem_cons.mp hq with rfl | hq
      · exact h2 x q hls
      · exact htrans q p x (hp q hq) (h2 x p hls)

/-- Helper: the insertion-sort fold preserves reverse-sortedness. -/
theorem foldlInsert_pairwise {α : Type*} (le : α → α → Prop) (less : α → α → Bool)
    (htrans : ∀ a b c, le a b → le b c → le a c)
    (h1 : ∀ a b, less a b = true → le a b)
    (h2 : ∀ a b, less a b = false → le b a)
    (xs : List α) :
    ∀ rp, List.Pairwise (fun a b => le b a) rp →
      List.Pairwise (fun a b => le b a)
        (xs.foldl (fun rp x => revInsert less x rp) rp) := by
  induction xs with
  | nil => intro rp hP; simpa using hP
  | cons x xs ih =>
    intro rp hP
    simp only [List.foldl_cons]
    exact ih _ (revInsert_pairwise le less htrans h1 h2 x rp hP)

/-- Helper: the modelled insertion sort produces a `le`-sorted list, for any
comparator compatible with a transitive order `le`. -/
theorem insertionSortGo_pairwise {α : Type*} (le : α → α → Prop) (less : α → α → Bool)
    (htrans : ∀ a b c, le a b → le b c → le a c)
    (h1 : ∀ a b, less a b = true → le a b)
    (h2 : ∀ a b, less a b = false → le b a)
    (xs : List α) :
    List.Pairwise le (insertionSortGo less xs) := by
  unfold insertionSortGo
  rw [List.pairwise_reverse]
  exact foldlInsert_pairwise le less htrans h1 h2 xs [] List.Pairwise.nil

/-- Helper: when the comparator never holds between elements of equal key,
`revInsert` never moves the new element past an equal-key element, so the
key-`q` sublist just gains `x` at its end. -/
theorem revInsert_filter_key {α β : Type*} [DecidableEq β] (k : α → β)
    (less : α → α → Bool) (hties : ∀ a b, k a = k b → less a b = false)
    (q : β) (x : α) (rp : List α) :
    ((revInsert less x rp).reverse).filter (fun a => decide (k a = q)) =
      ((rp.reverse).filter (fun a => decide (k a = q))) ++
        (if k x = q then [x] else []) := by
  induction rp with
  | nil =>
    by_cases hx : k x = q <;> simp [revInsert, hx]
  | cons p rp ih =>
    cases hls : less x p with
    | true =>
      simp only [revInsert, hls, if_true, List.reverse_cons, List.filter_append]
      rw [ih]
      by_cases hxq : k x = q
      · by_cases hpq : k p = q
        · exfalso
          have := hties x p (hxq.trans hpq.symm)
          rw [hls] at this
          exact Bool.true_eq_false.mp this
        · simp [hxq, hpq]
      · simp [hxq]
    | false =>
      simp only [revInsert, hls, Bool.false_eq_true, if_false, List.reverse_cons,
        List.filter_append]
      by_cases hxq : k x = q <;> simp [hxq, List.filter_append]

/-- Helper: the insertion-sort fold appends each new key-`q` element after
the ones already placed, under the same no-ties comparator condition. -/
theorem foldlInsert_filter_key {α β : Type*} [DecidableEq β] (k : α → β)
    (less : α → α → Bool) (hties : ∀ a b, k a = k b → less a b = false)
    (q : β) (xs : List α) :
    ∀ rp, ((xs.foldl (fun rp x => revInsert less x rp) rp).reverse).filter
        (fun a => decide (k a = q)) =
      ((rp.reverse).filter (fun a => decide (k a = q))) ++
        (xs.filter (fun a => decide (k a = q))) := by
  induction xs with
  | nil => intro rp; simp
  | cons x xs ih =>
    intro rp
    simp only [List.foldl_cons]
    rw [ih (revInsert less x rp), revInsert_filter_key k less hties q x rp]
    by_cases hxq : k x = q <;> simp [hxq, List.filter_cons]

/-- Helper: the modelled insertion sort is stable for comparators that never
hold between equal-key elements: the sublist of any fixed key is unchanged. -/
theorem insertionSortGo_filter_key {α β : Type*} [DecidableEq β] (k : α → β)
    (less : α → α → Bool) (hties : ∀ a b, k a = k b → less a b = false)
    (q : β) (xs : List α) :
    (insertionSortGo less xs).filter (fun a => decide (k a = q)) =
      xs.filter (fun a => decide (k a = q)) := by
  unfold insertionSortGo
  rw [foldlInsert_filter_key k less hties q xs []]
  simp

/-- Claim C5 (amended): on the modelled `sort.Slice` path (length ≤ 12, where
Go runs plain insertion sort), the report rows are sorted by ascending
percent for `reverse = false` and by descending percent for `reverse = true`;
for `reverse = false` (strict `<` comparator) the sort is stable — rows of
equal percent keep their relative input order — but for `reverse = true` the
comparator is the non-strict `>=`, which also fires on ties, so equal-percent
rows do NOT keep their input order (see the counterexample). -/
theorem c5_amended_sort_order_and_stability (xs : List CoveredFile) (q : ℚ)
    (_hlen : xs.length ≤ 12) :
    List.Pairwise (fun a b => a.percent ≤ b.percent) (sortFiles false xs) ∧
    (sortFiles false xs).filter (fun cf => decide (cf.percent = q)) =
      xs.filter (fun cf => decide (cf.percent = q)) ∧
    List.Pairwise (fun a b => b.percent ≤ a.percent) (sortFiles true xs) := by
  refine ⟨?_, ?_, ?_⟩
  · exact insertionSortGo_pairwise (fun a b => a.percent ≤ b.percent)
      (sortLess false)
      (fun a b c hab hbc => le_trans hab hbc)
      (fun a b h => le_of_lt (by simpa [sortLess] using h))
      (fun a b h => le_of_not_lt (by simpa [sortLess] using h))
      xs
  · exact insertionSortGo_filter_key CoveredFile.percent (sortLess false)
      (fun a b hk => by simp [sortLess, hk]) q xs
  · exact insertionSortGo_pairwise (fun a b => b.percent ≤ a.percent)
      (sortLess true)
      (fun a b c hab hbc => le_trans hbc hab)
      (fun a b h => by simpa [sortLess] using h)
      (fun a b h => le_of_not_le (by simpa [sortLess] using h))
      xs

/-- Witness for C5 (amended): a concrete two-row report. -/
theorem c5_amended_witness :
    ([CoveredFile.mk "a" 70, CoveredFile.mk "b" 30].length ≤ 12) ∧
    (List.Pairwise (fun a b => a.percent ≤ b.percent)
        (sortFiles false [CoveredFile.mk "a" 70, CoveredFile.mk "b" 30]) ∧
      (sortFiles false [CoveredFile.mk "a" 70, CoveredFile.mk "b" 30]).filter
          (fun cf => decide (cf.percent = (30 : ℚ))) =
        [CoveredFile.mk "a" 70, CoveredFile.mk "b" 30].filter
          (fun cf => decide (cf.percent = (30 : ℚ))) ∧
      List.Pairwise (fun a b => b.percent ≤ a.percent)
        (sortFiles true [CoveredFile.mk "a" 70, CoveredFile.mk "b" 30])) :=
  ⟨by decide,
   c5_amended_sort_order_and_stability
     [CoveredFile.mk "a" 70, CoveredFile.mk "b" 30] 30 (by decide)⟩

/-- The per-file aggregation of `run` (src/main.go lines 77-83): sum the
per-function `(covered, total)` pairs returned by `coverage` over the file's
function extents (`fileCovered += n; fileTotal += d`). -/
def fileStats (extents : List FuncExtent) (blocks : List ProfileBlock) : Int × Int :=
  extents.foldl (fun acc fe =>
    (acc.1 + (fe.coverage blocks).1, acc.2 + (fe.coverage blocks).2)) (0, 0)

/-- Go's `100.0 * float64(c) / float64(t)`, as an exact value: `none` models
the non-finite `float64` produced by a zero denominator (NaN for `0.0/0.0`,
which is the case `run` can reach, ±Inf otherwise); a non-finite value never
renders as `0.0%`. -/
def percentOf (c t : Int) : Option ℚ :=
  if t = 0 then none else some (100 * (c : ℚ) / (t : ℚ))

/-- The percent stored in `coveredFile` for one profile (src/main.go 84-87). -/
def filePercent (extents : List FuncExtent) (blocks : List ProfileBlock) : Option ℚ :=
  percentOf (fileStats extents blocks).1 (fileStats extents blocks).2

/-- One profile's contribution to `run`: the function extents parsed from its
source file and its coverage blocks. -/
structure ProfileInput where
  extents : List FuncExtent
  blocks : List ProfileBlock

/-- The grand accumulators of `run` (src/main.go lines 58, 81-82): `covered`
and `total` summed over every function of every profile. -/
def runTotals (inputs : List ProfileInput) : Int × Int :=
  inputs.foldl (fun acc inp =>
    (acc.1 + (fileStats inp.extents inp.blocks).1,
     acc.2 + (fileStats inp.extents inp.blocks).2)) (0, 0)

/-- `totalPercent` (src/main.go line 102). -/
def totalPercent (inputs : List ProfileInput) : Option ℚ :=
  percentOf (runTotals inputs).1 (runTotals inputs).2

/-- The per-file percents in profile order (before sorting). -/
def filePercents (inputs : List ProfileInput) : List (Option ℚ) :=
  inputs.map fun inp => filePercent inp.extents inp.blocks

/-- Counterexample for C7: a profiled source file that parses to NO function
declarations (legal Go, e.g. a file holding only variable declarations) has
`fileTotal = 0` — the `total = 1` floor lives inside the per-FUNCTION
`coverage` and is never applied at file level — so `run` computes
`100.0 * 0.0 / 0.0`, NaN, and the file does not report `0%`. -/
theorem c7_counterexample :
    filePercent [] [ProfileBlock.mk 1 1 2 3 4 1] = none ∧
    (none : Option ℚ) ≠ some 0 := by
  constructor
  · rfl
  · simp

/-- Helper: summing per-function `(0, 1)` pairs gives `(0, number of functions)`. -/
theorem fileStats_no_overlap (blocks : List ProfileBlock) :
    ∀ (extents : List FuncExtent), (∀ fe ∈ extents, fe.coverage blocks = (0, 1)) →
      ∀ acc : Int × Int,
        extents.foldl (fun acc fe =>
          (acc.1 + (fe.coverage blocks).1, acc.2 + (fe.coverage blocks).2)) acc =
        (acc.1, acc.2 + extents.length) := by
  intro extents
  induction extents with
  | nil => intro _ acc; simp
  | cons fe rest ih =>
    intro h acc
    have hfe := h fe (List.mem_cons_self fe rest)
    have hrest := fun x hx => h x (List.mem_cons_of_mem fe hx)
    simp only [List.foldl_cons, hfe, ih hrest]
    rw [Prod.ext_iff]
    refine ⟨by simp, ?_⟩
    simp only [List.length_cons]
    push_cast
    ring

/-- Claim C7 (amended): the per-file percent is `100 * covered / total` where
`total` is the sum of the per-function totals, each individually floored
to 1; hence a file with at least one function declaration and no
contributing statements has `total = number of functions ≥ 1` (not 1 in
general) and reports 0%, while a file with NO function declarations has
`total = 0` and its percent is the non-finite `0.0/0.0`, not 0% (see the
counterexample). -/
theorem c7_amended_percent_zero_needs_a_function (extents : List FuncExtent)
    (blocks : List ProfileBlock) (hne : extents ≠ [])
    (hno : ∀ fe ∈ extents, ∀ b ∈ blocks, ¬ overlaps fe b) :
    fileStats extents blocks = (0, (extents.length : Int)) ∧
    filePercent extents blocks = some 0 := by
  have hcov : ∀ fe ∈ extents, fe.coverage blocks = (0, 1) :=
    fun fe hfe => coverage_no_overlap fe blocks (hno fe hfe)
  have hstats : fileStats extents blocks = (0, (extents.length : Int)) := by
    unfold fileStats
    rw [fileStats_no_overlap blocks extents hcov (0, 0)]
    simp
  refine ⟨hstats, ?_⟩
  unfold filePercent
  rw [hstats]
  have hlen : (extents.length : Int) ≠ 0 := by
    have : extents.length ≠ 0 := fun h => hne (List.eq_nil_of_length_eq_zero h)
    exact_mod_cast this
  simp [percentOf, hlen]

/-- Witness for C7 (amended): one function extent, one non-overlapping block. -/
theorem c7_amended_witness :
    ([FuncExtent.mk "f" 5 1 9 2] ≠ ([] : List FuncExtent) ∧
     ∀ fe ∈ [FuncExtent.mk "f" 5 1 9 2],
       ∀ b ∈ [ProfileBlock.mk 1 1 2 3 4 1], ¬ overlaps fe b) ∧
    (fileStats [FuncExtent.mk "f" 5 1 9 2] [ProfileBlock.mk 1 1 2 3 4 1] =
        (0, ((1 : Nat) : Int)) ∧
      filePercent [FuncExtent.mk "f" 5 1 9 2] [ProfileBlock.mk 1 1 2 3 4 1] =
        some 0) :=
  ⟨⟨by decide, by decide⟩, by
    have h := c7_amended_percent_zero_needs_a_function
      [FuncExtent.mk "f" 5 1 9 2] [ProfileBlock.mk 1 1 2 3 4 1]
      (by decide) (by decide)
    simpa using h⟩

/-- Helper: a fold accumulating a pair of sums equals the pair of summed maps. -/
theorem foldl_pair_sum {γ : Type*} (g : γ → Int × Int) (l : List γ) :
    ∀ acc : Int × Int,
      l.foldl (fun acc x => (acc.1 + (g x).1, acc.2 + (g x).2)) acc =
        (acc.1 + (l.map fun x => (g x).1).sum, acc.2 + (l.map fun x => (g x).2).sum) := by
  induction l with
  | nil => intro acc; simp
  | cons x l ih =>
    intro acc
    simp only [List.foldl_cons, List.map_cons, List.sum_cons, ih]
    rw [Prod.ext_iff]
    exact ⟨by ring, by ring⟩

/-- A two-file demonstration input: file 1 has one function covering blocks
`(3 statements, hit 5 times)` and `(2 statements, hit 0 times)` (60%),
file 2 has one function with no blocks (0%). -/
def demoInputs : List ProfileInput :=
  [ProfileInput.mk [FuncExtent.mk "A" 1 1 10 2]
     [ProfileBlock.mk 2 1 3 10 3 5, ProfileBlock.mk 4 1 5 10 2 0],
   ProfileInput.mk [FuncExtent.mk "B" 1 1 10 2] []]

/-- Claim C8: the rendered total percent equals `100 * (sum of covered over
all files) / (sum of total over all files)`, and it is NOT the arithmetic
mean of the per-file percentages: on `demoInputs` the files report 60% and
0%, the weighted total is 50%, and the mean would be 30%. -/
theorem c8_total_weighted_not_mean :
    (∀ inputs : List ProfileInput,
      totalPercent inputs =
        percentOf ((inputs.map fun inp => (fileStats inp.extents inp.blocks).1).sum)
          ((inputs.map fun inp => (fileStats inp.extents inp.blocks).2).sum)) ∧
    filePercents demoInputs = [some 60, some 0] ∧
    totalPercent demoInputs = some 50 ∧
    (50 : ℚ) ≠ (60 + 0) / 2 := by
  refine ⟨?_, ?_, ?_, ?_⟩
  · intro inputs
    unfold totalPercent runTotals
    rw [foldl_pair_sum (fun inp => fileStats inp.extents inp.blocks) inputs (0, 0)]
    simp
  · have h1 : fileStats [FuncExtent.mk "A" 1 1 10 2]
        [ProfileBlock.mk 2 1 3 10 3 5, ProfileBlock.mk 4 1 5 10 2 0] = (3, 5) := by
      decide
    have h2 : fileStats [FuncExtent.mk "B" 1 1 10 2] [] = (0, 1) := by decide
    simp only [filePercents, demoInputs, List.map_cons, List.map_nil, filePercent,
      h1, h2]
    norm_num [percentOf]
  · have h3 : runTotals demoInputs = (3, 6) := by decide
    rw [totalPercent, h3]
    norm_num [percentOf]
  · norm_num

/-- The foreground colors used by the report, after `ansiterm.Color` as used
in src/main.go (`Red`, `Yellow`, `Green`, and `Default` for the fall-through
return of `getColor`). -/
inductive AnsiColor where
  | red
  | yellow
  | green
  | dfault
deriving DecidableEq

/-- `getColor` (src/main.go lines 109-121): three successive guarded returns
(`percent <= 30` red, `percent > 30 && percent <= 70` yellow, `percent > 70`
green) and a trailing `ansiterm.Default`. -/
def getColor (percent : ℚ) : AnsiColor :=
  if percent ≤ 30 then AnsiColor.red
  else if 30 < percent ∧ percent ≤ 70 then AnsiColor.yellow
  else if 70 < percent then AnsiColor.green
  else AnsiColor.dfault

/-- `getColor` as applied to a possibly non-finite percent: a NaN percent
(only reachable for a file with no functions) fails every comparison in
`getColor`, so it falls through to `Default`. -/
def getColorF : Option ℚ → AnsiColor
  | none => AnsiColor.dfault
  | some p => getColor p

/-- The row colors of the report (src/main.go line 97: `SetForeground` with
`getColor(coverfile.percent)` before each row). -/
def rowColors (inputs : List ProfileInput) : List AnsiColor :=
  (filePercents inputs).map getColorF

/-- The color of the total row (src/main.go line 103). -/
def totalColor (inputs : List ProfileInput) : AnsiColor :=
  getColorF (totalPercent inputs)

/-- Claim C9: a percent is colored red iff `p ≤ 30`, yellow iff
`30 < p ≤ 70`, and green iff `p > 70`; and the identical rule (`getColor`,
through `getColorF`) is applied to every per-file row and to the total row. -/
theorem c9_color_buckets (p : ℚ) :
    ((getColor p = AnsiColor.red ↔ p ≤ 30) ∧
     (getColor p = AnsiColor.yellow ↔ (30 < p ∧ p ≤ 70)) ∧
     (getColor p = AnsiColor.green ↔ 70 < p)) ∧
    (∀ inputs : List ProfileInput,
      rowColors inputs = (filePercents inputs).map getColorF ∧
      totalColor inputs = getColorF (totalPercent inputs)) := by
  refine ⟨?_, fun inputs => ⟨rfl, rfl⟩⟩
  unfold getColor
  split_ifs with h1 h2 h3
  · exact ⟨⟨fun _ => h1, fun _ => rfl⟩,
      ⟨fun hh => hh.elim, fun hh => absurd h1 (not_le.mpr hh.1)⟩,
      ⟨fun hh => hh.elim,
        fun hh => absurd h1 (not_le.mpr (by linarith))⟩⟩
  · exact ⟨⟨fun hh => hh.elim, fun hh => absurd hh h1⟩,
      ⟨fun _ => h2, fun _ => rfl⟩,
      ⟨fun hh => hh.elim, fun hh => absurd h2.2 (not_le.mpr hh)⟩⟩
  · exact ⟨⟨fun hh => hh.elim, fun hh => absurd hh h1⟩,
      ⟨fun hh => hh.elim, fun hh => absurd hh h2⟩,
      ⟨fun _ => h3, fun _ => rfl⟩⟩
  · exfalso
    push_neg at h1 h3
    exact h2 ⟨h1, h3⟩

/-- The outcome of `app.Run(os.Args)` as observed in `main` (src/main.go line
44): either success or an error value carrying a message; with urfave/cli v2,
`App.Run` returns the Action's error (the plain `errors.New`/`fmt.Errorf`
values this program produces are not `cli.ExitCoder`s, so the library itself
never exits either). -/
inductive RunOutcome where
  | ok
  | err (msg : String)

/-- The cli Action (src/main.go lines 34-41): an empty first positional
argument (no coverage file given) yields the usage error; otherwise the
outcome is that of `run(file, reverse)`, abstracted here as the parameter
`r` because `run` performs I/O. -/
def actionOutcome (file : String) (r : RunOutcome) : RunOutcome :=
  if file = "" then RunOutcome.err "please provide a coverage file" else r

/-- What `main` prints on the error path (src/main.go lines 44-46):
`fmt.Printf("Error: %s\n", err)`. -/
def mainErrorOutput : RunOutcome → Option String
  | RunOutcome.ok => none
  | RunOutcome.err m => some ("Error: " ++ m ++ "\n")

/-- The process exit status of `main` (src/main.go lines 25-47): `main`
contains no `os.Exit` call and only prints the error, so on both paths it
returns normally, and a Go program whose `main` returns exits with
status 0. -/
def mainExitStatus : RunOutcome → Nat
  | RunOutcome.ok => 0
  | RunOutcome.err _ => 0

/-- Claim C6 (code bug): on a failing run — shown here at the concrete
failing input of an invocation without a coverage-file argument — the error
message IS printed, but the process exit status is 0, not non-zero: `main`
never calls `os.Exit` after printing, so every outcome, error or not, exits
with status 0, diverging from the claim's (and the READMEs earlier
`log.Fatal` version's) non-zero contract.  The success half of the claim
(exit zero on success) does hold. -/
theorem c6_error_prints_but_exits_zero :
    mainErrorOutput (actionOutcome "" RunOutcome.ok) =
      some "Error: please provide a coverage file\n" ∧
    mainExitStatus (actionOutcome "" RunOutcome.ok) = 0 ∧
    (∀ r : RunOutcome, mainExitStatus r = 0) := by
  refine ⟨rfl, rfl, fun r => ?_⟩
  cases r <;> rfl
